import Mathlib

/-!
Verification of the fuzzy-search engine of the nez-tasks task board.

The engine lives twice in the repository, with character-for-character
identical logic: `SearchController` in `src/components/modals.js`
(fuzzyMatch / highlightMatches / performSearch / navigateResults /
selectResult) and the corresponding methods of `App` in `src/app.js`.
The definitions below are a shallow embedding of that code:

* JS strings are modelled as `List Char`; `String.prototype.toLowerCase`
  is modelled per character by `Char.toLower`, which folds ASCII letters
  only (the spec declares the engine ASCII-oriented, and all arithmetic
  on indices stays within small integers, so JS numbers are modelled by
  `Nat` / `Int`).
* the stateful controller (fields `searchResults`,
  `searchSelectedIndex`, the candidate list `app.tasks`) becomes the
  record `SessionState`, and each method becomes a state-passing
  function; DOM rendering and modal visibility are outside the engine.
* `escapeHtml` (a `div.textContent` / `innerHTML` round trip) becomes
  the standard HTML text-node serialisation of `&`, `<`, `>` and NBSP.
-/

namespace NezSearch

/-- A task as seen by the search engine.  Of the task record stored by
`taskService` the engine reads only `id` and `title` (candidates are
ranked on `task.title`); the remaining fields (sprint, priority, story
points, …) never influence matching, ranking or selection. -/
structure Task where
  id : Nat
  title : List Char
  deriving Repr, DecidableEq

/-- Result record of `fuzzyMatch`: a numeric score and the matched
positions, exactly the `{ score, matches }` object of the source. -/
structure MatchResult where
  score : Int
  matchPositions : List Nat
  deriving Repr, DecidableEq

/-- One element of `this.searchResults` as built by `performSearch`:
the task, the highlighted HTML string and the score. -/
structure SearchEntry where
  task : Task
  highlighted : List Char
  score : Int
  deriving Repr, DecidableEq

/-- The greedy scanning loop of `fuzzyMatch` (modals.js:272-280): walk
the lowered text left to right carrying the current index, consume the
next query character on equality, and record its index.  The returned
list is the `matches` array at loop exit (all query characters were
consumed exactly when its length equals the query length). -/
def scanM : List Char → List Char → Nat → List Nat
  | [], _, _ => []
  | _ :: _, [], _ => []
  | t :: ts, q :: qs, i =>
    if t = q then i :: scanM ts qs (i + 1) else scanM ts (q :: qs) (i + 1)

/-- First index `≥ i` (while scanning the given suffix, whose head sits
at absolute index `i`) holding character `c`. -/
def findFrom : List Char → Char → Nat → Option Nat
  | [], _, _ => none
  | t :: ts, c, i => if t = c then some i else findFrom ts c (i + 1)

/-- Modelled from the spec: greedy left-to-right alignment, "first
available occurrence per query character" at or after the previous
matched position plus one; `none` when some query character has no
remaining occurrence.  Used as the independent specification the
`fuzzyMatch` positions are compared against. -/
def greedySpec (tl : List Char) : List Char → Nat → Option (List Nat)
  | [], _ => some []
  | c :: qs, s =>
    match findFrom (tl.drop s) c s with
    | none => none
    | some i =>
      match greedySpec tl qs (i + 1) with
      | none => none
      | some ms => some (i :: ms)

/-- `String.prototype.startsWith` on character lists. -/
def jsStartsWith : List Char → List Char → Bool
  | _, [] => true
  | [], _ :: _ => false
  | t :: ts, q :: qs => t == q && jsStartsWith ts qs

/-- The consecutive-match bonus loop of `fuzzyMatch`
(modals.js:303-309): 50 points for every adjacent pair of matched
positions that are contiguous. -/
def consecutiveBonus : List Nat → Int
  | a :: b :: rest => (if b = a + 1 then 50 else 0) + consecutiveBonus (b :: rest)
  | _ => 0

/-- Number of adjacent contiguous pairs in a position list (spec-side
counter used to state the scoring formula). -/
def adjPairs : List Nat → Nat
  | a :: b :: rest => (if b = a + 1 then 1 else 0) + adjPairs (b :: rest)
  | _ => 0

/-- The score block of `fuzzyMatch` (modals.js:292-316), split out for
reuse in statements: 100 base, +1000 exact (case-insensitive), +500
case-insensitive prefix, +50 per contiguous adjacent pair,
−2·firstIndex, −5·(last − first − (count − 1)). -/
def fuzzyScore (textLower queryLower : List Char) (ms : List Nat) : Int :=
  let exactBonus : Int := if textLower = queryLower then 1000 else 0
  let startBonus : Int := if jsStartsWith textLower queryLower then 500 else 0
  let firstIdx : Int := (ms.headD 0 : Int)
  let totalGaps : Int := (ms.getLastD 0 : Int) - firstIdx - ((ms.length : Int) - 1)
  100 + exactBonus + startBonus + consecutiveBonus ms - firstIdx * 2 - totalGaps * 5

/-- `fuzzyMatch(text, query)` of modals.js:265-317 / app.js, with the
score block split out as `fuzzyScore` above.  Empty query: score 0, no
positions.  Otherwise scan greedily; if not all query characters are
consumed return the sentinel `{score: -1, matches: []}`, else the
scored record. -/
def fuzzyMatch (text query : List Char) : MatchResult :=
  if query = [] then { score := 0, matchPositions := [] }
  else
    let textLower := text.map Char.toLower
    let queryLower := query.map Char.toLower
    let ms := scanM textLower queryLower 0
    if ms.length ≠ queryLower.length then { score := -1, matchPositions := [] }
    else { score := fuzzyScore textLower queryLower ms, matchPositions := ms }

/-- The no-match sentinel `{score: -1, matches: []}` of `fuzzyMatch`. -/
def noMatch : MatchResult := { score := -1, matchPositions := [] }

/-- HTML text-node escaping of one character, as produced by the
`escapeHtml` helper of app.js (a `div.textContent` → `innerHTML` round
trip): `&`, `<`, `>` and NBSP become entities, all else is verbatim. -/
def escapeHtmlChar (c : Char) : List Char :=
  if c = '&' then "&amp;".data
  else if c = '<' then "&lt;".data
  else if c = '>' then "&gt;".data
  else if c.toNat = 160 then "&nbsp;".data
  else [c]

/-- `escapeHtml` on a whole string. -/
def escapeHtml (t : List Char) : List Char :=
  (t.map escapeHtmlChar).flatten

/-- `String.prototype.substring(a, b)`: clamp both arguments to the
length, swap them if needed, and return the characters in between. -/
def jsSubstring (t : List Char) (a b : Nat) : List Char :=
  let a' := min a t.length
  let b' := min b t.length
  (t.take (max a' b')).drop (min a' b')

/-- The grouping loop of `highlightMatches` (modals.js:328-341): fold
the remaining positions into maximal `[start, end]` groups of
consecutive indices, starting from the open group `[gs, ge]`. -/
def groupRuns : Nat → Nat → List Nat → List (Nat × Nat)
  | gs, ge, [] => [(gs, ge)]
  | gs, ge, m :: rest =>
    if m = ge + 1 then groupRuns gs m rest else (gs, ge) :: groupRuns m m rest

/-- The string-building loop of `highlightMatches` (modals.js:343-350):
for each group emit the escaped gap before it and the escaped group
wrapped in `<mark>` tags, then the escaped tail. -/
def renderGroups (text : List Char) : List (Nat × Nat) → Nat → List Char
  | [], lastIdx => escapeHtml (jsSubstring text lastIdx text.length)
  | (s, e) :: rest, lastIdx =>
    escapeHtml (jsSubstring text lastIdx s)
      ++ ("<mark>".data ++ escapeHtml (jsSubstring text s (e + 1)) ++ "</mark>".data)
      ++ renderGroups text rest (e + 1)

/-- `highlightMatches(text, matches)` of modals.js:322-353 / app.js:
empty positions give the escaped text, otherwise the grouped positions
are rendered with `<mark>` markup. -/
def highlightMatches (text : List Char) (ms : List Nat) : List Char :=
  match ms with
  | [] => escapeHtml text
  | m :: rest => renderGroups text (groupRuns m m rest) 0

/-- Tag of a highlight run. -/
inductive RunKind where
  | plain
  | matched
  deriving Repr, DecidableEq

/-- A highlight run: a tag plus the raw (unescaped) segment of the
source text it covers. -/
structure Run where
  kind : RunKind
  seg : List Char
  deriving Repr, DecidableEq

/-- Run decomposition underlying `highlightMatches`: the same groups,
emitted as raw plain/matched segments instead of an HTML string. -/
def runsOfGroups (text : List Char) : List (Nat × Nat) → Nat → List Run
  | [], lastIdx => [⟨.plain, jsSubstring text lastIdx text.length⟩]
  | (s, e) :: rest, lastIdx =>
    ⟨.plain, jsSubstring text lastIdx s⟩ :: ⟨.matched, jsSubstring text s (e + 1)⟩
      :: runsOfGroups text rest (e + 1)

/-- The plain/matched run sequence computed by the highlighter. -/
def highlightRuns (text : List Char) (ms : List Nat) : List Run :=
  match ms with
  | [] => [⟨.plain, text⟩]
  | m :: rest => runsOfGroups text (groupRuns m m rest) 0

/-- How `highlightMatches` renders one run into the output string:
escape the segment and wrap matched segments in `<mark>` tags. -/
def renderRun (r : Run) : List Char :=
  match r.kind with
  | .plain => escapeHtml r.seg
  | .matched => "<mark>".data ++ escapeHtml r.seg ++ "</mark>".data

/-- The white space class of `String.prototype.trim` (WhiteSpace and
LineTerminator code points). -/
def isJsWhitespace (c : Char) : Bool :=
  let n := c.toNat
  (9 ≤ n && n ≤ 13) || n == 32 || n == 160 || n == 0x1680
    || (0x2000 ≤ n && n ≤ 0x200A) || n == 0x2028 || n == 0x2029
    || n == 0x202F || n == 0x205F || n == 0x3000 || n == 0xFEFF

/-- `String.prototype.trim`. -/
def jsTrim (s : List Char) : List Char :=
  ((s.dropWhile isJsWhitespace).reverse.dropWhile isJsWhitespace).reverse

/-- The mapping step of the non-empty branch of `performSearch`
(modals.js:364-372): run `fuzzyMatch` on the task title and package
task, highlighted title and score. -/
def entryOf (query : List Char) (tk : Task) : SearchEntry :=
  let result := fuzzyMatch tk.title query
  { task := tk, highlighted := highlightMatches tk.title result.matchPositions,
    score := result.score }

/-- One entry of the empty-query browse branch (modals.js:357-361). -/
def browseEntry (tk : Task) : SearchEntry :=
  { task := tk, highlighted := escapeHtml tk.title, score := 0 }

/-- `this.app.tasks.map(...)` of the non-empty branch. -/
def searchEntries (tasks : List Task) (query : List Char) : List SearchEntry :=
  tasks.map (entryOf query)

/-- `.filter(r => r.score >= 0)` of modals.js:373. -/
def searchFiltered (tasks : List Task) (query : List Char) : List SearchEntry :=
  (searchEntries tasks query).filter fun e => decide (0 ≤ e.score)

/-- Ordering used by `.sort((a, b) => b.score - a.score)`: `a` may sit
before `b` exactly when the comparator is `≤ 0`, i.e. score descending. -/
def scoreGE (a b : SearchEntry) : Prop :=
  b.score ≤ a.score

instance : DecidableRel scoreGE :=
  fun a b => inferInstanceAs (Decidable (b.score ≤ a.score))

instance : IsTotal SearchEntry scoreGE :=
  ⟨fun a b => le_total b.score a.score⟩

instance : IsTrans SearchEntry scoreGE :=
  ⟨fun _ _ _ hab hbc => le_trans hbc hab⟩

/-- `.sort((a, b) => b.score - a.score)` of modals.js:374.  JS
`Array.prototype.sort` is specified to be stable, so it is modelled by
a stable sorting algorithm (insertion sort) under the comparator's
order `scoreGE`. -/
def searchSorted (tasks : List Task) (query : List Char) : List SearchEntry :=
  (searchFiltered tasks query).insertionSort scoreGE

/-- `performSearch(query)` of modals.js:355-381 / app.js, restricted to
the value stored into `this.searchResults`: blank (trimmed-empty) query
gives the first ten tasks as unscored browse entries, otherwise map,
filter out negative scores, sort descending (stably) and keep the first
ten (`.slice(0, 10)`). -/
def performSearch (tasks : List Task) (query : List Char) : List SearchEntry :=
  if jsTrim query = [] then (tasks.take 10).map browseEntry
  else (searchSorted tasks query).take 10

/-- State of the search session: the candidate list (`app.tasks`), the
current `searchResults` and `searchSelectedIndex`.  The selected index
is a JS number, modelled as `Int`. -/
structure SessionState where
  tasks : List Task
  results : List SearchEntry
  selectedIndex : Int
  deriving Repr, DecidableEq

/-- `show()` (modals.js:242-253): clear the input, reset the cursor and
recompute results for the empty query (which resets the cursor again). -/
def openSearch (tasks : List Task) : SessionState :=
  { tasks := tasks, results := performSearch tasks [], selectedIndex := 0 }

/-- A keystroke: `performSearch(e.target.value)` recomputes
`searchResults` and resets `searchSelectedIndex` to 0 (modals.js:378). -/
def setQuery (s : SessionState) (q : List Char) : SessionState :=
  { s with results := performSearch s.tasks q, selectedIndex := 0 }

/-- `navigateResults(direction)` (modals.js:422-432): no-op on empty
results, else `(selectedIndex + direction + n) % n` with the JS `%`
(truncated remainder, `Int.tmod`). -/
def navigate (s : SessionState) (d : Int) : SessionState :=
  if s.results.length = 0 then s
  else
    { s with selectedIndex :=
        (s.selectedIndex + d + (s.results.length : Int)).tmod (s.results.length : Int) }

/-- JS array subscripting `l[i]`: `undefined` (here `none`) outside the
bounds. -/
def jsIndex {α : Type} (l : List α) (i : Int) : Option α :=
  if i < 0 then none else l[i.toNat]?

/-- `selectResult()` (modals.js:434-453): no-op on empty results or a
missing entry; otherwise the selected entry's task is emitted to the
host (the method then navigates the board and opens the task modal,
which is outside the engine).  The session fields themselves are not
changed. -/
def commitSearch (s : SessionState) : SessionState × Option Task :=
  if s.results.length = 0 then (s, none)
  else
    match jsIndex s.results s.selectedIndex with
    | none => (s, none)
    | some r => (s, some r.task)

/-- One call into an open search session: a keystroke (`setQuery`),
an arrow key (`navigate`) or the enter key (`commit`). -/
inductive SessionCall where
  | setQ : List Char → SessionCall
  | nav : Int → SessionCall
  | commitC : SessionCall
  deriving Repr, DecidableEq

/-- Executable interpretation of one session call: the next state and
what is emitted to the host. -/
def stepFn (s : SessionState) : SessionCall → SessionState × Option Task
  | .setQ q => (setQuery s q, none)
  | .nav d => (navigate s d, none)
  | .commitC => commitSearch s

/-- The session transition system, one rule per control-flow branch of
the source handlers.  `SessionStep s c s' e` reads: in state `s`, call
`c` moves the session to `s'` and emits `e`. -/
inductive SessionStep : SessionState → SessionCall → SessionState → Option Task → Prop where
  | setQ (s : SessionState) (q : List Char) :
      SessionStep s (.setQ q) (setQuery s q) none
  | navEmpty (s : SessionState) (d : Int) (h : s.results.length = 0) :
      SessionStep s (.nav d) s none
  | navStep (s : SessionState) (d : Int) (h : s.results.length ≠ 0) :
      SessionStep s (.nav d)
        { s with selectedIndex :=
            (s.selectedIndex + d + (s.results.length : Int)).tmod (s.results.length : Int) }
        none
  | commitEmpty (s : SessionState) (h : s.results.length = 0) :
      SessionStep s .commitC s none
  | commitMiss (s : SessionState) (h : s.results.length ≠ 0)
      (hm : jsIndex s.results s.selectedIndex = none) :
      SessionStep s .commitC s none
  | commitHit (s : SessionState) (r : SearchEntry) (h : s.results.length ≠ 0)
      (hr : jsIndex s.results s.selectedIndex = some r) :
      SessionStep s .commitC s (some r.task)

/-- A whole call sequence, recording after each call the observable
pair (selectedIndex, emission). -/
inductive SessionRun : SessionState → List SessionCall → List (Int × Option Task) → SessionState → Prop where
  | nil (s : SessionState) : SessionRun s [] [] s
  | cons {s s' s'' : SessionState} {c : SessionCall} {e : Option Task}
      {cs : List SessionCall} {tr : List (Int × Option Task)} :
      SessionStep s c s' e → SessionRun s' cs tr s'' →
      SessionRun s (c :: cs) ((s'.selectedIndex, e) :: tr) s''

/-- Executable runner for a call sequence (used to exhibit concrete
runs of the transition system). -/
def runTr (s : SessionState) : List SessionCall → List (Int × Option Task) × SessionState
  | [] => ([], s)
  | c :: cs =>
    let (s', e) := stepFn s c
    let (tr, s'') := runTr s' cs
    ((s'.selectedIndex, e) :: tr, s'')

/-- Session states reachable through the UI: opened via `show()`, then
any sequence of keystrokes, arrow keys (`navigateResults(1)` /
`navigateResults(-1)` are the only call sites) and enter. -/
inductive ReachableSession : SessionState → Prop where
  | openR (ts : List Task) : ReachableSession (openSearch ts)
  | setQ {s : SessionState} (q : List Char) :
      ReachableSession s → ReachableSession (setQuery s q)
  | nav {s : SessionState} {d : Int} (hd : d = 1 ∨ d = -1) :
      ReachableSession s → ReachableSession (navigate s d)
  | commitR {s : SessionState} :
      ReachableSession s → ReachableSession (commitSearch s).1

/-- Well-formedness of the group list produced by the highlighter's
grouping loop relative to a left cursor: groups are in bounds, ordered,
and separated from the cursor. -/
def GroupsOK (len : Nat) : Nat → List (Nat × Nat) → Prop
  | _, [] => True
  | lastIdx, (s, e) :: rest => lastIdx ≤ s ∧ s ≤ e ∧ e < len ∧ GroupsOK len (e + 1) rest

/-- The two demo candidates of the spec's session walkthrough. -/
def demoTask1 : Task := ⟨1, "Fix login bug".data⟩

/-- Second demo candidate. -/
def demoTask2 : Task := ⟨2, "Add login page".data⟩

/-- A title whose only match for the query `"a"` sits at index 51. -/
def lateTitle : List Char := List.replicate 51 'b' ++ ['a']

/-- Fifteen candidates that all match the query `"a"`. -/
def demoTasks15 : List Task :=
  (List.range 15).map fun i => ⟨i, 'a' :: List.replicate i 'x'⟩

/-- The call sequence of the spec's session walkthrough. -/
def demoCalls : List SessionCall := [.setQ "login".data, .nav 1, .nav 1, .commitC]

theorem scanM_nil_query (ts : List Char) (i : Nat) : scanM ts [] i = [] := by
  cases ts <;> rfl

theorem scanM_complete : ∀ (ts qs : List Char) (i : Nat),
    (scanM ts qs i).length = qs.length ↔ qs.Sublist ts := by
  intro ts
  induction ts with
  | nil =>
    intro qs i
    cases qs with
    | nil => simp [scanM]
    | cons q qs' => simp [scanM]
  | cons t ts ih =>
    intro qs i
    cases qs with
    | nil => simp [scanM]
    | cons q qs' =>
      by_cases h : t = q
      · subst h
        rw [scanM, if_pos rfl]
        simp only [List.length_cons, Nat.add_right_cancel_iff, List.cons_sublist_cons]
        exact ih qs' (i + 1)
      · rw [scanM, if_neg h]
        rw [ih (q :: qs') (i + 1)]
        constructor
        · exact fun hs => hs.cons t
        · intro hs
          cases hs with
          | cons _ h' => exact h'
          | cons₂ _ h' => exact absurd rfl h

theorem scanM_ge : ∀ (ts qs : List Char) (i m : Nat), m ∈ scanM ts qs i → i ≤ m := by
  intro ts
  induction ts with
  | nil => intro qs i m hm; simp [scanM] at hm
  | cons t ts ih =>
    intro qs i m hm
    cases qs with
    | nil => simp [scanM] at hm
    | cons q qs' =>
      by_cases h : t = q
      · rw [scanM, if_pos h] at hm
        rcases List.mem_cons.mp hm with rfl | hm'
        · exact le_refl m
        · exact le_trans (Nat.le_succ i) (ih qs' (i + 1) m hm')
      · rw [scanM, if_neg h] at hm
        exact le_trans (Nat.le_succ i) (ih (q :: qs') (i + 1) m hm)

theorem scanM_lt : ∀ (ts qs : List Char) (i m : Nat), m ∈ scanM ts qs i → m < i + ts.length := by
  intro ts
  induction ts with
  | nil => intro qs i m hm; simp [scanM] at hm
  | cons t ts ih =>
    intro qs i m hm
    cases qs with
    | nil => simp [scanM] at hm
    | cons q qs' =>
      by_cases h : t = q
      · rw [scanM, if_pos h] at hm
        rcases List.mem_cons.mp hm with rfl | hm'
        · simp
        · have := ih qs' (i + 1) m hm'
          simp only [List.length_cons]
          omega
      · rw [scanM, if_neg h] at hm
        have := ih (q :: qs') (i + 1) m hm
        simp only [List.length_cons]
        omega

theorem scanM_chain : ∀ (ts qs : List Char) (i : Nat), List.Chain' (· < ·) (scanM ts qs i) := by
  intro ts
  induction ts with
  | nil => intro qs i; simp [scanM]
  | cons t ts ih =>
    intro qs i
    cases qs with
    | nil => simp [scanM]
    | cons q qs' =>
      by_cases h : t = q
      · rw [scanM, if_pos h]
        refine List.chain'_cons'.mpr ⟨?_, ih qs' (i + 1)⟩
        intro b hb
        have hmem : b ∈ scanM ts qs' (i + 1) := List.mem_of_mem_head? hb
        exact lt_of_lt_of_le (Nat.lt_succ_self i) (scanM_ge ts qs' (i + 1) b hmem)
      · rw [scanM, if_neg h]
        exact ih (q :: qs') (i + 1)

theorem findFrom_ge : ∀ (ts : List Char) (c : Char) (i j : Nat),
    findFrom ts c i = some j → i ≤ j := by
  intro ts
  induction ts with
  | nil => intro c i j h; simp [findFrom] at h
  | cons t ts ih =>
    intro c i j h
    by_cases ht : t = c
    · rw [findFrom, if_pos ht] at h
      exact le_of_eq (Option.some_injective _ h)
    · rw [findFrom, if_neg ht] at h
      exact le_trans (Nat.le_succ i) (ih c (i + 1) j h)

theorem scanM_findFrom_none : ∀ (ts : List Char) (c : Char) (qs : List Char) (i : Nat),
    findFrom ts c i = none → scanM ts (c :: qs) i = [] := by
  intro ts
  induction ts with
  | nil => intro c qs i _; rfl
  | cons t ts ih =>
    intro c qs i h
    by_cases ht : t = c
    · rw [findFrom, if_pos ht] at h
      exact absurd h (Option.some_ne_none i)
    · rw [findFrom, if_neg ht] at h
      rw [scanM, if_neg ht]
      exact ih c qs (i + 1) h

theorem scanM_findFrom_some : ∀ (ts : List Char) (c : Char) (qs : List Char) (i j : Nat),
    findFrom ts c i = some j →
    scanM ts (c :: qs) i = j :: scanM (ts.drop (j + 1 - i)) qs (j + 1) := by
  intro ts
  induction ts with
  | nil => intro c qs i j h; simp [findFrom] at h
  | cons t ts ih =>
    intro c qs i j h
    by_cases ht : t = c
    · rw [findFrom, if_pos ht] at h
      have hj : i = j := Option.some_injective _ h
      subst hj
      rw [scanM, if_pos ht]
      have : i + 1 - i = 1 := by omega
      rw [this, List.drop_one, List.tail_cons]
    · rw [findFrom, if_neg ht] at h
      have hij : i + 1 ≤ j := findFrom_ge ts c (i + 1) j h
      rw [scanM, if_neg ht, ih c qs (i + 1) j h]
      have hdrop : (t :: ts).drop (j + 1 - i) = ts.drop (j + 1 - (i + 1)) := by
        have h1 : j + 1 - i = (j + 1 - (i + 1)) + 1 := by omega
        rw [h1, List.drop_succ_cons]
      rw [hdrop]

theorem scanM_greedySpec (tl : List Char) : ∀ (qs : List Char) (s : Nat),
    (scanM (tl.drop s) qs s).length = qs.length →
    greedySpec tl qs s = some (scanM (tl.drop s) qs s) := by
  intro qs
  induction qs with
  | nil =>
    intro s _
    rw [scanM_nil_query]
    rfl
  | cons c qs ih =>
    intro s hlen
    cases hf : findFrom (tl.drop s) c s with
    | none =>
      rw [scanM_findFrom_none _ _ _ _ hf] at hlen
      simp at hlen
    | some j =>
      have hsj : s ≤ j := findFrom_ge _ _ _ _ hf
      have hdd : (tl.drop s).drop (j + 1 - s) = tl.drop (j + 1) := by
        rw [List.drop_drop]
        congr 1
        omega
      have hstep := scanM_findFrom_some (tl.drop s) c qs s j hf
      rw [hdd] at hstep
      rw [hstep] at hlen ⊢
      simp only [List.length_cons, Nat.add_right_cancel_iff] at hlen
      have hg := ih (j + 1) hlen
      simp only [greedySpec, hf, hg]


theorem fuzzyMatch_empty (t : List Char) :
    fuzzyMatch t [] = { score := 0, matchPositions := [] } := rfl

theorem fuzzyMatch_unmatched (t q : List Char) (hq : q ≠ [])
    (hlen : (scanM (t.map Char.toLower) (q.map Char.toLower) 0).length ≠ q.length) :
    fuzzyMatch t q = noMatch := by
  simp [fuzzyMatch, hq, hlen, noMatch]

theorem fuzzyMatch_matched (t q : List Char) (hq : q ≠ [])
    (hlen : (scanM (t.map Char.toLower) (q.map Char.toLower) 0).length = q.length) :
    fuzzyMatch t q =
      { score := fuzzyScore (t.map Char.toLower) (q.map Char.toLower)
          (scanM (t.map Char.toLower) (q.map Char.toLower) 0),
        matchPositions := scanM (t.map Char.toLower) (q.map Char.toLower) 0 } := by
  simp [fuzzyMatch, hq, hlen]

theorem fuzzyMatch_ne_noMatch_iff (t q : List Char) :
    fuzzyMatch t q ≠ noMatch ↔ (q.map Char.toLower).Sublist (t.map Char.toLower) := by
  by_cases hq : q = []
  · subst hq
    rw [fuzzyMatch_empty]
    simp [noMatch]
  · by_cases hlen : (scanM (t.map Char.toLower) (q.map Char.toLower) 0).length = q.length
    · rw [fuzzyMatch_matched t q hq hlen]
      have hsub : (q.map Char.toLower).Sublist (t.map Char.toLower) :=
        (scanM_complete _ _ 0).mp (by rw [List.length_map]; exact hlen)
      have hne : scanM (t.map Char.toLower) (q.map Char.toLower) 0 ≠ [] := by
        intro h0
        rw [h0] at hlen
        exact hq (List.length_eq_zero.mp hlen.symm)
      exact iff_of_true
        (fun hcontra => hne (congrArg MatchResult.matchPositions hcontra)) hsub
    · rw [fuzzyMatch_unmatched t q hq hlen]
      apply iff_of_false
      · simp
      · intro hsub
        have := (scanM_complete _ _ 0).mpr hsub
        rw [List.length_map] at this
        exact hlen this

/-- C2: `fuzzyMatch` reports a match (returns anything other than the
`{score: -1, matches: []}` sentinel) if and only if the lowered query
is an ordered subsequence of the lowered text; on a match the returned
positions are strictly increasing, in-bounds indices of the text and
equal the greedy first-occurrence-per-character alignment `greedySpec`
(not an optimal alignment). -/
theorem fuzzyMatch_subsequence_correct (t q : List Char) :
    (fuzzyMatch t q ≠ noMatch ↔ (q.map Char.toLower).Sublist (t.map Char.toLower))
    ∧ (fuzzyMatch t q ≠ noMatch →
        List.Chain' (· < ·) (fuzzyMatch t q).matchPositions
        ∧ (∀ m ∈ (fuzzyMatch t q).matchPositions, m < t.length)
        ∧ greedySpec (t.map Char.toLower) (q.map Char.toLower) 0 =
            some (fuzzyMatch t q).matchPositions) := by
  refine ⟨fuzzyMatch_ne_noMatch_iff t q, fun hm => ?_⟩
  by_cases hq : q = []
  · subst hq
    rw [fuzzyMatch_empty]
    exact ⟨by simp, by simp, rfl⟩
  · have hlen : (scanM (t.map Char.toLower) (q.map Char.toLower) 0).length = q.length := by
      by_contra hcon
      exact hm (fuzzyMatch_unmatched t q hq hcon)
    rw [fuzzyMatch_matched t q hq hlen]
    refine ⟨scanM_chain _ _ _, ?_, ?_⟩
    · intro m hmem
      have hlt := scanM_lt _ _ 0 m hmem
      simpa using hlt
    · have h0 : (t.map Char.toLower).drop 0 = t.map Char.toLower := List.drop_zero _
      have hg := scanM_greedySpec (t.map Char.toLower) (q.map Char.toLower) 0
        (by rw [h0, List.length_map]; exact hlen)
      rw [h0] at hg
      exact hg

theorem fuzzyMatch_subsequence_correct_witness :
    List.Chain' (· < ·) (fuzzyMatch "Deploy service".data "dpy".data).matchPositions
    ∧ (∀ m ∈ (fuzzyMatch "Deploy service".data "dpy".data).matchPositions,
        m < "Deploy service".data.length)
    ∧ greedySpec ("Deploy service".data.map Char.toLower) ("dpy".data.map Char.toLower) 0 =
        some (fuzzyMatch "Deploy service".data "dpy".data).matchPositions :=
  (fuzzyMatch_subsequence_correct "Deploy service".data "dpy".data).2 (by decide)

theorem consecutiveBonus_eq_adjPairs : ∀ ms : List Nat,
    consecutiveBonus ms = 50 * (adjPairs ms : Int) := by
  intro ms
  induction ms with
  | nil => simp [consecutiveBonus, adjPairs]
  | cons a rest ih =>
    cases rest with
    | nil => simp [consecutiveBonus, adjPairs]
    | cons b rest2 =>
      have e1 : consecutiveBonus (a :: b :: rest2) =
          (if b = a + 1 then (50 : Int) else 0) + consecutiveBonus (b :: rest2) := rfl
      have e2 : adjPairs (a :: b :: rest2) =
          (if b = a + 1 then 1 else 0) + adjPairs (b :: rest2) := rfl
      rw [e1, e2, ih]
      split_ifs <;> push_cast <;> ring

/-- C3: the empty query matches everything with score 0 and no
positions; a non-empty matching query scores base 100, plus 1000 for
case-insensitive equality, plus 500 for a case-insensitive prefix,
plus 50 per adjacent pair of contiguous matched positions, minus twice
the first matched position, minus five times (span between first and
last matched position minus (match count − 1)). -/
theorem fuzzyMatch_score_formula (t q : List Char) :
    fuzzyMatch t ([] : List Char) = { score := 0, matchPositions := [] }
    ∧ (q ≠ [] → fuzzyMatch t q ≠ noMatch →
        (fuzzyMatch t q).score =
          100
          + (if t.map Char.toLower = q.map Char.toLower then 1000 else 0)
          + (if jsStartsWith (t.map Char.toLower) (q.map Char.toLower) then 500 else 0)
          + 50 * (adjPairs (fuzzyMatch t q).matchPositions : Int)
          - 2 * ((fuzzyMatch t q).matchPositions.headD 0 : Int)
          - 5 * ((((fuzzyMatch t q).matchPositions.getLastD 0 : Int)
              - ((fuzzyMatch t q).matchPositions.headD 0 : Int))
              - (((fuzzyMatch t q).matchPositions.length : Int) - 1))) := by
  refine ⟨rfl, fun hq hm => ?_⟩
  have hlen : (scanM (t.map Char.toLower) (q.map Char.toLower) 0).length = q.length := by
    by_contra hcon
    exact hm (fuzzyMatch_unmatched t q hq hcon)
  rw [fuzzyMatch_matched t q hq hlen]
  simp only [fuzzyScore]
  rw [consecutiveBonus_eq_adjPairs]
  ring

theorem fuzzyMatch_score_formula_witness :
    (fuzzyMatch "Login".data "login".data).score =
      100
      + (if "Login".data.map Char.toLower = "login".data.map Char.toLower then 1000 else 0)
      + (if jsStartsWith ("Login".data.map Char.toLower) ("login".data.map Char.toLower)
          then 500 else 0)
      + 50 * (adjPairs (fuzzyMatch "Login".data "login".data).matchPositions : Int)
      - 2 * ((fuzzyMatch "Login".data "login".data).matchPositions.headD 0 : Int)
      - 5 * ((((fuzzyMatch "Login".data "login".data).matchPositions.getLastD 0 : Int)
          - ((fuzzyMatch "Login".data "login".data).matchPositions.headD 0 : Int))
          - (((fuzzyMatch "Login".data "login".data).matchPositions.length : Int) - 1)) :=
  (fuzzyMatch_score_formula "Login".data "login".data).2 (by decide) (by decide)


theorem jsSubstring_eq_of_le (t : List Char) (a b : Nat) (hab : a ≤ b) (hb : b ≤ t.length) :
    jsSubstring t a b = (t.take b).drop a := by
  have ha : min a t.length = a := min_eq_left (le_trans hab hb)
  have hb' : min b t.length = b := min_eq_left hb
  simp only [jsSubstring, ha, hb', min_eq_left hab, max_eq_right hab]

theorem jsSubstring_whole (t : List Char) : jsSubstring t 0 t.length = t := by
  rw [jsSubstring_eq_of_le t 0 t.length (Nat.zero_le _) (le_refl _),
    List.take_length, List.drop_zero]

theorem take_drop_glue (t : List Char) (a b c : Nat) (hab : a ≤ b) (hbc : b ≤ c)
    (hc : c ≤ t.length) :
    (t.take b).drop a ++ (t.take c).drop b = (t.take c).drop a := by
  have hsplit : t.take c = t.take b ++ (t.take c).drop b := by
    conv_lhs => rw [← List.take_append_drop b (t.take c)]
    rw [List.take_take, min_eq_left hbc]
  conv_rhs => rw [hsplit]
  rw [List.drop_append_eq_append_drop]
  have hz : a - (t.take b).length = 0 := by
    rw [List.length_take]
    omega
  rw [hz, List.drop_zero]

theorem jsSubstring_glue (t : List Char) (a b c : Nat) (hab : a ≤ b) (hbc : b ≤ c)
    (hc : c ≤ t.length) :
    jsSubstring t a b ++ jsSubstring t b c = jsSubstring t a c := by
  rw [jsSubstring_eq_of_le t a b hab (le_trans hbc hc),
    jsSubstring_eq_of_le t b c hbc hc,
    jsSubstring_eq_of_le t a c (le_trans hab hbc) hc]
  exact take_drop_glue t a b c hab hbc hc

theorem groupsOK_groupRuns (len : Nat) : ∀ (rest : List Nat) (gs ge lastIdx : Nat),
    lastIdx ≤ gs → gs ≤ ge → ge < len →
    List.Chain' (· < ·) (ge :: rest) → (∀ m ∈ rest, m < len) →
    GroupsOK len lastIdx (groupRuns gs ge rest) := by
  intro rest
  induction rest with
  | nil =>
    intro gs ge lastIdx h1 h2 h3 _ _
    exact ⟨h1, h2, h3, trivial⟩
  | cons m rest ih =>
    intro gs ge lastIdx h1 h2 h3 hchain hb
    have hgm : ge < m := (List.chain'_cons.mp hchain).1
    have hchain' : List.Chain' (· < ·) (m :: rest) := (List.chain'_cons.mp hchain).2
    have hm : m < len := hb m (List.mem_cons_self m rest)
    have hb' : ∀ x ∈ rest, x < len := fun x hx => hb x (List.mem_cons_of_mem m hx)
    rw [groupRuns]
    by_cases hme : m = ge + 1
    · rw [if_pos hme]
      exact ih gs m lastIdx h1 (le_trans h2 (le_of_lt hgm)) hm hchain' hb'
    · rw [if_neg hme]
      exact ⟨h1, h2, h3, ih m m (ge + 1) hgm (le_refl m) hm hchain' hb'⟩

theorem runsOfGroups_concat (text : List Char) : ∀ (gs : List (Nat × Nat)) (lastIdx : Nat),
    GroupsOK text.length lastIdx gs → lastIdx ≤ text.length →
    ((runsOfGroups text gs lastIdx).map Run.seg).flatten =
      jsSubstring text lastIdx text.length := by
  intro gs
  induction gs with
  | nil =>
    intro lastIdx _ _
    simp [runsOfGroups]
  | cons g rest ih =>
    intro lastIdx hOK hlast
    obtain ⟨s, e⟩ := g
    obtain ⟨h1, h2, h3, hOK'⟩ := hOK
    have he1 : e + 1 ≤ text.length := h3
    have ihr := ih (e + 1) hOK' he1
    simp only [runsOfGroups, List.map_cons, List.flatten_cons, ihr]
    rw [← List.append_assoc,
      jsSubstring_glue text lastIdx s (e + 1) h1 (by omega) he1,
      jsSubstring_glue text lastIdx (e + 1) text.length (by omega) he1 (le_refl _)]

theorem renderGroups_eq_runs (text : List Char) : ∀ (gs : List (Nat × Nat)) (lastIdx : Nat),
    renderGroups text gs lastIdx = ((runsOfGroups text gs lastIdx).map renderRun).flatten := by
  intro gs
  induction gs with
  | nil =>
    intro lastIdx
    simp [renderGroups, runsOfGroups, renderRun]
  | cons g rest ih =>
    intro lastIdx
    obtain ⟨s, e⟩ := g
    simp only [renderGroups, runsOfGroups, List.map_cons, List.flatten_cons, ih (e + 1),
      renderRun]
    simp [List.append_assoc]

/-- C5 amended: for strictly increasing in-bounds positions the
highlighter's run decomposition is an ordered sequence of plain/matched
runs whose raw segments concatenate to the input text exactly, and
empty positions give exactly one plain run spanning the text; but the
implementation's actual output is that run sequence rendered into an
HTML string, with every segment escaped and matched runs wrapped in
mark tags — markup and escaping are added, contrary to the claim. -/
theorem highlight_runs_amended (text : List Char) (ms : List Nat)
    (hchain : List.Chain' (· < ·) ms) (hbound : ∀ m ∈ ms, m < text.length) :
    ((highlightRuns text ms).map Run.seg).flatten = text
    ∧ highlightMatches text ms = ((highlightRuns text ms).map renderRun).flatten
    ∧ (ms = [] → highlightRuns text ms = [⟨.plain, text⟩]) := by
  cases ms with
  | nil =>
    refine ⟨by simp [highlightRuns], ?_, fun _ => rfl⟩
    simp [highlightMatches, highlightRuns, renderRun]
  | cons m rest =>
    have hm : m < text.length := hbound m (List.mem_cons_self m rest)
    have hb' : ∀ x ∈ rest, x < text.length := fun x hx => hbound x (List.mem_cons_of_mem m hx)
    have hOK : GroupsOK text.length 0 (groupRuns m m rest) :=
      groupsOK_groupRuns text.length rest m m 0 (Nat.zero_le m) (le_refl m) hm hchain hb'
    refine ⟨?_, ?_, fun hcon => absurd hcon (List.cons_ne_nil m rest)⟩
    · have := runsOfGroups_concat text (groupRuns m m rest) 0 hOK (Nat.zero_le _)
      rw [highlightRuns]
      rw [this, jsSubstring_whole]
    · rw [highlightMatches, highlightRuns]
      exact renderGroups_eq_runs text (groupRuns m m rest) 0

/-- Witness for the amended C5 on the spec's own example: text "User
login" with positions [5..9]. -/
theorem highlight_runs_amended_witness :
    ((highlightRuns "User login".data [5, 6, 7, 8, 9]).map Run.seg).flatten = "User login".data
    ∧ highlightMatches "User login".data [5, 6, 7, 8, 9] =
        ((highlightRuns "User login".data [5, 6, 7, 8, 9]).map renderRun).flatten
    ∧ ([5, 6, 7, 8, 9] = ([] : List Nat) →
        highlightRuns "User login".data [5, 6, 7, 8, 9] = [⟨.plain, "User login".data⟩]) :=
  highlight_runs_amended "User login".data [5, 6, 7, 8, 9] (by simp) (by decide)

/-- C5 counterexample: the highlighter's output is not markup-free raw
text data.  Highlighting the matched position 0 of "a" yields the
string "<mark>a</mark>", not "a"; and even the positions-free run over
"a&b" is escaped to "a&amp;b".  The concatenation-reproduces-text
property fails for the real output. -/
theorem highlight_output_adds_markup :
    highlightMatches ['a'] [0] = "<mark>a</mark>".data
    ∧ highlightMatches ['a'] [0] ≠ ['a']
    ∧ highlightMatches "a&b".data [] = "a&amp;b".data
    ∧ highlightMatches "a&b".data [] ≠ "a&b".data := by
  decide


theorem searchFiltered_eq (tasks : List Task) (q : List Char) :
    searchFiltered tasks q =
      (tasks.filter fun tk => decide (0 ≤ (fuzzyMatch tk.title q).score)).map (entryOf q) := by
  unfold searchFiltered searchEntries
  rw [List.map_filter]
  rfl

theorem fuzzyMatch_score_of_not_sublist (tk : Task) (q : List Char)
    (hns : ¬ (q.map Char.toLower).Sublist (tk.title.map Char.toLower)) :
    (fuzzyMatch tk.title q).score = -1 := by
  have heq : fuzzyMatch tk.title q = noMatch := by
    by_contra hne
    exact hns ((fuzzyMatch_ne_noMatch_iff tk.title q).mp hne)
  rw [heq]
  rfl

/-- C4 amended: for a non-empty (post-trim) query, a candidate is kept
in the pre-truncation ranking if and only if its `fuzzyMatch` score is
non-negative.  Every non-match carries the sentinel score −1 and is
discarded, and every survivor has score ≥ 0 — but this is decided by
the numeric score, and a genuinely matching candidate whose computed
score is negative is discarded too (see the counterexample). -/
theorem search_filter_amended (tasks : List Task) (q : List Char) (_hq : jsTrim q ≠ []) :
    searchFiltered tasks q =
      (tasks.filter fun tk => decide (0 ≤ (fuzzyMatch tk.title q).score)).map (entryOf q)
    ∧ (∀ tk : Task, ¬ (q.map Char.toLower).Sublist (tk.title.map Char.toLower) →
        (fuzzyMatch tk.title q).score = -1)
    ∧ (∀ e ∈ searchFiltered tasks q, 0 ≤ e.score) := by
  refine ⟨searchFiltered_eq tasks q, fun tk hns => fuzzyMatch_score_of_not_sublist tk q hns, ?_⟩
  intro e he
  have := (List.mem_filter.mp he).2
  exact of_decide_eq_true this

/-- Witness for the amended C4 at the query "login" over one demo
candidate. -/
theorem search_filter_amended_witness :
    searchFiltered [demoTask1] "login".data =
      ([demoTask1].filter fun tk =>
        decide (0 ≤ (fuzzyMatch tk.title "login".data).score)).map (entryOf "login".data)
    ∧ (∀ tk : Task, ¬ ("login".data.map Char.toLower).Sublist (tk.title.map Char.toLower) →
        (fuzzyMatch tk.title "login".data).score = -1)
    ∧ (∀ e ∈ searchFiltered [demoTask1] "login".data, 0 ≤ e.score) :=
  search_filter_amended [demoTask1] "login".data (by decide)

/-- C4 counterexample: the query "a" is a case-insensitive ordered
subsequence of `lateTitle` (fifty-one b characters then an a), so the
candidate matches; its score is 100 − 2·51 = −2, and the
`score >= 0` filter silently drops it from the pre-truncation ranking
— a matching candidate is conflated with the non-matches because of
its numeric score, contradicting the claim. -/
theorem search_filter_drops_negative_match :
    (("a".data.map Char.toLower).Sublist (lateTitle.map Char.toLower))
    ∧ (fuzzyMatch lateTitle "a".data).score = -2
    ∧ searchFiltered [⟨1, lateTitle⟩] "a".data = []
    ∧ performSearch [⟨1, lateTitle⟩] "a".data = [] := by
  decide

/-- C6: for a non-empty (post-trim) query, the ranking is the stable
descending-score sort of the surviving candidates truncated to 10:
the output is a prefix of length min(10, survivors) of a permutation
of the filtered list, pairwise sorted by descending score, and any two
survivors in input order with the first scoring no lower (in
particular score ties) keep their relative order.  Instantiated with
15 matching candidates by the witness: exactly 10 results. -/
theorem performSearch_ranking (tasks : List Task) (q : List Char) (hq : jsTrim q ≠ []) :
    performSearch tasks q = (searchSorted tasks q).take 10
    ∧ (searchSorted tasks q).Perm (searchFiltered tasks q)
    ∧ List.Pairwise scoreGE (searchSorted tasks q)
    ∧ List.Pairwise scoreGE (performSearch tasks q)
    ∧ (∀ a b : SearchEntry, [a, b].Sublist (searchFiltered tasks q) → scoreGE a b →
        [a, b].Sublist (searchSorted tasks q))
    ∧ (performSearch tasks q).length = min (searchFiltered tasks q).length 10 := by
  have hps : performSearch tasks q = (searchSorted tasks q).take 10 := by
    unfold performSearch
    rw [if_neg hq]
  have hsorted : List.Pairwise scoreGE (searchSorted tasks q) :=
    List.sorted_insertionSort scoreGE (searchFiltered tasks q)
  refine ⟨hps, List.perm_insertionSort scoreGE _, hsorted, ?_, ?_, ?_⟩
  · rw [hps]
    exact hsorted.sublist (List.take_sublist 10 _)
  · intro a b hs hr
    exact List.pair_sublist_insertionSort hr hs
  · rw [hps, List.length_take]
    unfold searchSorted
    rw [List.length_insertionSort, Nat.min_comm]

/-- Witness for C6: ranking the 15 matching demo candidates with the
query "a" returns exactly 10 entries in descending score order. -/
theorem performSearch_ranking_witness :
    (performSearch demoTasks15 "a".data).length =
      min (searchFiltered demoTasks15 "a".data).length 10
    ∧ (searchFiltered demoTasks15 "a".data).length = 15
    ∧ (performSearch demoTasks15 "a".data).length = 10
    ∧ List.Pairwise scoreGE (performSearch demoTasks15 "a".data) := by
  have h := performSearch_ranking demoTasks15 "a".data (by decide)
  refine ⟨h.2.2.2.2.2, by decide, ?_, h.2.2.2.1⟩
  rw [h.2.2.2.2.2]
  decide


theorem commitSearch_fst (s : SessionState) : (commitSearch s).1 = s := by
  unfold commitSearch
  by_cases h : s.results.length = 0
  · rw [if_pos h]
  · rw [if_neg h]
    cases hj : jsIndex s.results s.selectedIndex <;> simp

theorem navigate_empty (s : SessionState) (d : Int) (h : s.results = []) :
    navigate s d = s := by
  unfold navigate
  rw [if_pos (by rw [h]; rfl)]

theorem commitSearch_empty (s : SessionState) (h : s.results = []) :
    commitSearch s = (s, none) := by
  unfold commitSearch
  rw [if_pos (by rw [h]; rfl)]

theorem navigate_nonempty (s : SessionState) (d : Int) (h : s.results.length ≠ 0) :
    navigate s d =
      { s with selectedIndex :=
          (s.selectedIndex + d + (s.results.length : Int)).tmod (s.results.length : Int) } := by
  unfold navigate
  rw [if_neg h]

theorem reachable_selectedIndex_bounds {s : SessionState} (h : ReachableSession s) :
    0 ≤ s.selectedIndex
    ∧ ((s.results = [] ∧ s.selectedIndex = 0) ∨ s.selectedIndex < (s.results.length : Int)) := by
  induction h with
  | openR ts =>
    refine ⟨le_refl 0, ?_⟩
    by_cases hr : performSearch ts [] = []
    · exact Or.inl ⟨hr, rfl⟩
    · right
      show (0 : Int) < ((performSearch ts []).length : Int)
      have : 0 < (performSearch ts []).length := List.length_pos.mpr hr
      exact_mod_cast this
  | setQ q hs ih =>
    rename_i s'
    refine ⟨le_refl 0, ?_⟩
    by_cases hr : performSearch s'.tasks q = []
    · exact Or.inl ⟨hr, rfl⟩
    · right
      show (0 : Int) < ((performSearch s'.tasks q).length : Int)
      have : 0 < (performSearch s'.tasks q).length := List.length_pos.mpr hr
      exact_mod_cast this
  | nav hd hs ih =>
    rename_i s' d
    by_cases h0 : s'.results.length = 0
    · rw [navigate_empty s' d (List.length_eq_zero.mp h0)]
      exact ih
    · rw [navigate_nonempty s' d h0]
      have hn : (0 : Int) < (s'.results.length : Int) := by
        have := Nat.pos_of_ne_zero h0
        exact_mod_cast this
      have hdiv : 0 ≤ s'.selectedIndex + d + (s'.results.length : Int) := by
        have h1 := ih.1
        rcases hd with rfl | rfl <;> omega
      have htm : (s'.selectedIndex + d + (s'.results.length : Int)).tmod
            (s'.results.length : Int) =
          (s'.selectedIndex + d + (s'.results.length : Int)) % (s'.results.length : Int) :=
        Int.tmod_eq_emod hdiv (le_of_lt hn)
      constructor
      · rw [htm]
        exact Int.emod_nonneg _ (ne_of_gt hn)
      · right
        rw [htm]
        exact Int.emod_lt_of_pos _ hn
  | commitR hs ih =>
    rename_i s'
    rw [commitSearch_fst]
    exact ih

/-- C8: in every reachable session state the cursor stays in bounds
(zero on empty results, otherwise `0 ≤ selectedIndex < n`); every
result recomputation (open and every setQuery) resets it to 0;
navigation by ±1 on non-empty results is circular wraparound
`(selectedIndex + direction + n) mod n`; and navigate or commit on
empty results leaves the state unchanged and emits nothing. -/
theorem session_selectedIndex_invariant (s : SessionState) (hs : ReachableSession s) :
    (0 ≤ s.selectedIndex
      ∧ ((s.results = [] ∧ s.selectedIndex = 0) ∨ s.selectedIndex < (s.results.length : Int)))
    ∧ (∀ ts, (openSearch ts).selectedIndex = 0)
    ∧ (∀ q, (setQuery s q).selectedIndex = 0)
    ∧ (∀ d, (d = 1 ∨ d = -1) → s.results ≠ [] →
        (navigate s d).selectedIndex =
          (s.selectedIndex + d + (s.results.length : Int)) % (s.results.length : Int))
    ∧ (s.results = [] → (∀ d, navigate s d = s) ∧ commitSearch s = (s, none)) := by
  refine ⟨reachable_selectedIndex_bounds hs, fun ts => rfl, fun q => rfl, ?_, ?_⟩
  · intro d hd hne
    have h0 : s.results.length ≠ 0 := fun hc => hne (List.length_eq_zero.mp hc)
    rw [navigate_nonempty s d h0]
    have hb := reachable_selectedIndex_bounds hs
    have hn : (0 : Int) < (s.results.length : Int) := by
      have := Nat.pos_of_ne_zero h0
      exact_mod_cast this
    have hdiv : 0 ≤ s.selectedIndex + d + (s.results.length : Int) := by
      have h1 := hb.1
      rcases hd with rfl | rfl <;> omega
    exact Int.tmod_eq_emod hdiv (le_of_lt hn)
  · intro hr
    exact ⟨fun d => navigate_empty s d hr, commitSearch_empty s hr⟩

/-- Witness for C8 at the session freshly opened on the empty
candidate list. -/
theorem session_selectedIndex_invariant_witness :
    0 ≤ (openSearch ([] : List Task)).selectedIndex
    ∧ (((openSearch ([] : List Task)).results = []
          ∧ (openSearch ([] : List Task)).selectedIndex = 0)
        ∨ (openSearch ([] : List Task)).selectedIndex <
            ((openSearch ([] : List Task)).results.length : Int)) :=
  (session_selectedIndex_invariant (openSearch []) (ReachableSession.openR [])).1

theorem sessionStep_exec (s : SessionState) (c : SessionCall) :
    SessionStep s c (stepFn s c).1 (stepFn s c).2 := by
  cases c with
  | setQ q => exact SessionStep.setQ s q
  | nav d =>
    show SessionStep s (.nav d) (navigate s d) none
    by_cases h : s.results.length = 0
    · rw [navigate_empty s d (List.length_eq_zero.mp h)]
      exact SessionStep.navEmpty s d h
    · rw [navigate_nonempty s d h]
      exact SessionStep.navStep s d h
  | commitC =>
    show SessionStep s .commitC (commitSearch s).1 (commitSearch s).2
    by_cases h : s.results.length = 0
    · rw [commitSearch_empty s (List.length_eq_zero.mp h)]
      exact SessionStep.commitEmpty s h
    · cases hj : jsIndex s.results s.selectedIndex with
      | none =>
        have hc : commitSearch s = (s, none) := by
          unfold commitSearch
          rw [if_neg h, hj]
        rw [hc]
        exact SessionStep.commitMiss s h hj
      | some r =>
        have hc : commitSearch s = (s, some r.task) := by
          unfold commitSearch
          rw [if_neg h, hj]
        rw [hc]
        exact SessionStep.commitHit s r h hj

theorem sessionStep_det {s : SessionState} {c : SessionCall} {s1 s2 : SessionState}
    {e1 e2 : Option Task} (h1 : SessionStep s c s1 e1) (h2 : SessionStep s c s2 e2) :
    s1 = s2 ∧ e1 = e2 := by
  cases h1 <;> cases h2 <;> simp_all

theorem sessionRun_det {s : SessionState} {cs : List SessionCall}
    {tr1 tr2 : List (Int × Option Task)} {s1 s2 : SessionState}
    (h1 : SessionRun s cs tr1 s1) (h2 : SessionRun s cs tr2 s2) :
    tr1 = tr2 ∧ s1 = s2 := by
  induction cs generalizing s tr1 tr2 with
  | nil =>
    cases h1
    cases h2
    exact ⟨rfl, rfl⟩
  | cons c cs ih =>
    cases h1 with
    | cons hstep1 hrun1 =>
      cases h2 with
      | cons hstep2 hrun2 =>
        obtain ⟨hs, he⟩ := sessionStep_det hstep1 hstep2
        subst hs
        subst he
        obtain ⟨htr, hfin⟩ := ih hrun1 hrun2
        exact ⟨by rw [htr], hfin⟩

theorem sessionRun_exec (s : SessionState) (cs : List SessionCall) :
    SessionRun s cs (runTr s cs).1 (runTr s cs).2 := by
  induction cs generalizing s with
  | nil => exact SessionRun.nil s
  | cons c cs ih =>
    exact SessionRun.cons (sessionStep_exec s c) (ih (stepFn s c).1)

/-- C1: the search session is deterministic.  Any two runs of the same
call sequence (setQuery / navigate / commit) from a session opened on
the same candidate list produce the same observable trace — the same
selectedIndex after each call and the same committed candidate — and
the same final state. -/
theorem search_session_determinism (ts : List Task) (cs : List SessionCall)
    {tr1 tr2 : List (Int × Option Task)} {s1 s2 : SessionState}
    (h1 : SessionRun (openSearch ts) cs tr1 s1)
    (h2 : SessionRun (openSearch ts) cs tr2 s2) :
    tr1 = tr2 ∧ s1 = s2 :=
  sessionRun_det h1 h2

/-- Witness for C1: two executions of the walkthrough call sequence on
the demo candidates, with the common trace computed explicitly. -/
theorem search_session_determinism_witness :
    (runTr (openSearch [demoTask1, demoTask2]) demoCalls).1 =
      [(0, none), (1, none), (0, none), (0, some demoTask1)]
    ∧ ((runTr (openSearch [demoTask1, demoTask2]) demoCalls).1 =
        (runTr (openSearch [demoTask1, demoTask2]) demoCalls).1
      ∧ (runTr (openSearch [demoTask1, demoTask2]) demoCalls).2 =
        (runTr (openSearch [demoTask1, demoTask2]) demoCalls).2) :=
  ⟨by decide,
    search_session_determinism [demoTask1, demoTask2] demoCalls
      (sessionRun_exec (openSearch [demoTask1, demoTask2]) demoCalls)
      (sessionRun_exec (openSearch [demoTask1, demoTask2]) demoCalls)⟩


/-- Escaping one character never produces a literal `<`. -/
theorem lt_not_mem_escapeHtmlChar (c : Char) : '<' ∉ escapeHtmlChar c := by
  unfold escapeHtmlChar
  split_ifs with h1 h2 h3 h4
  · decide
  · decide
  · decide
  · decide
  · intro h
    exact h2 (List.mem_singleton.mp h).symm

/-- The escaped text contains no literal `<`, hence no markup. -/
theorem lt_not_mem_escapeHtml (t : List Char) : '<' ∉ escapeHtml t := by
  unfold escapeHtml
  intro h
  rcases List.mem_flatten.mp h with ⟨l, hl, hmem⟩
  rcases List.mem_map.mp hl with ⟨c, _, rfl⟩
  exact lt_not_mem_escapeHtmlChar c hmem

/-- A query made of white space only trims to the empty string. -/
theorem jsTrim_eq_nil_of_whitespace {q : List Char}
    (hw : ∀ c ∈ q, isJsWhitespace c = true) : jsTrim q = [] := by
  unfold jsTrim
  rw [List.dropWhile_eq_nil_iff.mpr hw]
  rfl

/-- C7: ranking with the empty query is the browse-mode pass-through:
the first ten candidates in input order, each with score 0 and the
escaped title as display text, with no highlight markup (the output
contains no `<` at all); no candidate is filtered or reordered. -/
theorem performSearch_empty_query (tasks : List Task) :
    performSearch tasks [] = (tasks.take 10).map browseEntry
    ∧ (performSearch tasks []).map (fun e => e.task) = tasks.take 10
    ∧ ∀ e ∈ performSearch tasks [],
        e.score = 0 ∧ e.highlighted = escapeHtml e.task.title ∧ '<' ∉ e.highlighted := by
  have hb : performSearch tasks [] = (tasks.take 10).map browseEntry := by
    simp [performSearch, jsTrim]
  refine ⟨hb, ?_, ?_⟩
  · rw [hb, List.map_map]
    have hc : ((fun e : SearchEntry => e.task) ∘ browseEntry) = id := rfl
    rw [hc, List.map_id]
  · intro e he
    rw [hb] at he
    rcases List.mem_map.mp he with ⟨tk, _, rfl⟩
    exact ⟨rfl, rfl, lt_not_mem_escapeHtml _⟩

/-- C10: a query consisting only of white space characters is treated
exactly like the empty query: emptiness is decided on the trimmed
query, so the browse branch runs and the matcher is never consulted. -/
theorem performSearch_whitespace_query (tasks : List Task) (q : List Char)
    (hw : ∀ c ∈ q, isJsWhitespace c = true) :
    performSearch tasks q = performSearch tasks []
    ∧ performSearch tasks q = (tasks.take 10).map browseEntry := by
  have ht : jsTrim q = [] := jsTrim_eq_nil_of_whitespace hw
  have h0 : jsTrim ([] : List Char) = [] := rfl
  constructor
  · simp [performSearch, ht, h0]
  · simp [performSearch, ht]

/-- Witness for C10 at the single-space query. -/
theorem performSearch_whitespace_query_witness :
    performSearch [demoTask1] " ".data = performSearch [demoTask1] []
    ∧ performSearch [demoTask1] " ".data = ([demoTask1].take 10).map browseEntry :=
  performSearch_whitespace_query [demoTask1] " ".data (by decide)

/-- C9: the spec's concrete session walkthrough.  Open on the two demo
candidates and type "login": two results, cursor on 0, candidate id 1
ranked first on a tied score of 292; ArrowDown moves the cursor to 1, a
second ArrowDown wraps it back to 0, and Enter emits candidate id 1. -/
theorem session_demo_scenario :
    (setQuery (openSearch [demoTask1, demoTask2]) "login".data).results.length = 2
    ∧ (setQuery (openSearch [demoTask1, demoTask2]) "login".data).selectedIndex = 0
    ∧ ((setQuery (openSearch [demoTask1, demoTask2]) "login".data).results.map
        fun e => e.task.id) = [1, 2]
    ∧ ((setQuery (openSearch [demoTask1, demoTask2]) "login".data).results.map
        fun e => e.score) = [292, 292]
    ∧ (navigate (setQuery (openSearch [demoTask1, demoTask2]) "login".data) 1).selectedIndex = 1
    ∧ (navigate (navigate (setQuery (openSearch [demoTask1, demoTask2]) "login".data) 1)
        1).selectedIndex = 0
    ∧ (commitSearch (navigate (navigate (setQuery (openSearch [demoTask1, demoTask2])
        "login".data) 1) 1)).2 = some demoTask1
    ∧ demoTask1.id = 1 := by
  decide

end NezSearch
